import Mathlib

/-!
Verification of the scoped configuration resolver of the `vscode-spell-checker`
client (`src/client/src/settings/settings.ts` and `src/client/src/extension.ts`).

JavaScript strings are embedded as lists of characters (`Str`), so that the
string operations used by the source (`split`, `join`, `trim`, `toLowerCase`,
`sort`) become executable structural functions that the kernel can evaluate.
The VS Code configuration store is embedded as an `Inspect` record holding the
value stored at each scope, exactly mirroring `workspace.getConfiguration().inspect`.
-/

abbrev Str := List Char

/-- JavaScript `s.split(sep)` for a one-character separator: always returns a
non-empty list of separator-free pieces; `"".split(sep)` returns `[""]`. -/
def splitOnChar (sep : Char) : Str → List Str
  | [] => [[]]
  | c :: cs =>
    if c = sep then [] :: splitOnChar sep cs
    else
      match splitOnChar sep cs with
      | [] => [[c]]
      | w :: ws => (c :: w) :: ws

/-- JavaScript `parts.join(sep)` for a one-character separator. -/
def joinChar (sep : Char) : List Str → Str
  | [] => []
  | [w] => w
  | w :: ws => w ++ sep :: joinChar sep ws

/-- JavaScript `String.prototype.trim`: remove leading and trailing whitespace. -/
def trimChars (s : Str) : Str :=
  List.rdropWhile Char.isWhitespace (s.dropWhile Char.isWhitespace)

/-- JavaScript `String.prototype.toLowerCase` (on the code points the
repository manipulates). -/
def toLowerStr (s : Str) : Str := s.map Char.toLower

/-- Boolean comparison behind the default JavaScript `Array.prototype.sort`
comparator on strings: lexicographic comparison of code units. -/
def strLe : Str → Str → Bool
  | [], _ => true
  | _ :: _, [] => false
  | a :: as, b :: bs => if a < b then true else if b < a then false else strLe as bs

/-- The order relation induced by `strLe`. -/
def strLeR (a b : Str) : Prop := strLe a b = true

instance : DecidableRel strLeR := fun a b => by
  unfold strLeR; infer_instance

/-- Modelled from the spec: `uniqueFilter`/`unique` live in `../util`, which is
not part of the provided client sources; per the spec, de-duplication keeps the
first occurrence of each element.  `uniqueAux` carries the set of elements seen
so far, exactly as a `filter(uniqueFilter())` pass does. -/
def uniqueAux {α : Type} [DecidableEq α] (seen : List α) : List α → List α
  | [] => []
  | x :: xs => if x ∈ seen then uniqueAux seen xs else x :: uniqueAux (x :: seen) xs

/-- First-occurrence-wins de-duplication (`unique` from `../util`). -/
def unique {α : Type} [DecidableEq α] (l : List α) : List α := uniqueAux [] l

section StrLemmas

theorem splitOnChar_cons_pos (sep c : Char) (cs : Str) (hc : c = sep) :
    splitOnChar sep (c :: cs) = [] :: splitOnChar sep cs := by
  simp only [splitOnChar, if_pos hc]

theorem splitOnChar_cons_neg (sep c : Char) (cs : Str) (hc : ¬c = sep)
    (v : Str) (vs : List Str) (h : splitOnChar sep cs = v :: vs) :
    splitOnChar sep (c :: cs) = (c :: v) :: vs := by
  simp only [splitOnChar, if_neg hc, h]

theorem splitOnChar_ne_nil (sep : Char) (s : Str) : splitOnChar sep s ≠ [] := by
  induction s with
  | nil => simp [splitOnChar]
  | cons c cs ih =>
    by_cases hc : c = sep
    · rw [splitOnChar_cons_pos sep c cs hc]; simp
    · cases h : splitOnChar sep cs with
      | nil => exact absurd h ih
      | cons v vs => rw [splitOnChar_cons_neg sep c cs hc v vs h]; simp

theorem not_mem_of_mem_splitOnChar (sep : Char) (s : Str) :
    ∀ w ∈ splitOnChar sep s, sep ∉ w := by
  induction s with
  | nil => simp [splitOnChar]
  | cons c cs ih =>
    intro w hw
    by_cases hc : c = sep
    · rw [splitOnChar_cons_pos sep c cs hc] at hw
      rcases List.mem_cons.mp hw with h | h
      · subst h; simp
      · exact ih w h
    · cases h : splitOnChar sep cs with
      | nil => exact absurd h (splitOnChar_ne_nil sep cs)
      | cons v vs =>
        rw [splitOnChar_cons_neg sep c cs hc v vs h] at hw
        rcases List.mem_cons.mp hw with h' | h'
        · subst h'
          intro hmem
          rcases List.mem_cons.mp hmem with h'' | h''
          · exact hc h''.symm
          · exact ih v (h ▸ List.mem_cons_self v vs) h''
        · exact ih w (h ▸ List.mem_cons_of_mem v h')

theorem joinChar_splitOnChar (sep : Char) (s : Str) :
    joinChar sep (splitOnChar sep s) = s := by
  induction s with
  | nil => simp [splitOnChar, joinChar]
  | cons c cs ih =>
    by_cases hc : c = sep
    · rw [splitOnChar_cons_pos sep c cs hc]
      cases h : splitOnChar sep cs with
      | nil => exact absurd h (splitOnChar_ne_nil sep cs)
      | cons w ws =>
        rw [h] at ih
        subst hc
        simpa [joinChar] using ih
    · cases h : splitOnChar sep cs with
      | nil => exact absurd h (splitOnChar_ne_nil sep cs)
      | cons w ws =>
        rw [splitOnChar_cons_neg sep c cs hc w ws h]
        rw [h] at ih
        cases ws with
        | nil => simpa [joinChar] using congrArg (c :: ·) ih
        | cons w' ws' => simpa [joinChar] using congrArg (c :: ·) ih

theorem splitOnChar_sepfree (sep : Char) (w : Str) (hw : sep ∉ w) :
    splitOnChar sep w = [w] := by
  induction w with
  | nil => simp [splitOnChar]
  | cons c cs ih =>
    have hc : ¬c = sep := fun h => hw (by simp [h])
    have hcs : sep ∉ cs := fun h => hw (List.mem_cons_of_mem _ h)
    exact splitOnChar_cons_neg sep c cs hc cs [] (ih hcs)

theorem splitOnChar_append_cons (sep : Char) (w r : Str) (hw : sep ∉ w) :
    splitOnChar sep (w ++ sep :: r) = w :: splitOnChar sep r := by
  induction w with
  | nil => simp [splitOnChar]
  | cons c cs ih =>
    have hc : ¬c = sep := fun h => hw (by simp [h])
    have hcs : sep ∉ cs := fun h => hw (List.mem_cons_of_mem _ h)
    have h1 : splitOnChar sep (cs ++ sep :: r) = cs :: splitOnChar sep r := ih hcs
    calc splitOnChar sep ((c :: cs) ++ sep :: r)
        = splitOnChar sep (c :: (cs ++ sep :: r)) := by simp
      _ = (c :: cs) :: splitOnChar sep r := splitOnChar_cons_neg sep c _ hc _ _ h1

theorem splitOnChar_joinChar (sep : Char) (L : List Str) (hne : L ≠ [])
    (hfree : ∀ w ∈ L, sep ∉ w) :
    splitOnChar sep (joinChar sep L) = L := by
  induction L with
  | nil => exact absurd rfl hne
  | cons w ws ih =>
    cases ws with
    | nil =>
      simpa [joinChar] using splitOnChar_sepfree sep w (hfree w (by simp))
    | cons w' ws' =>
      have h1 : joinChar sep (w :: w' :: ws') = w ++ sep :: joinChar sep (w' :: ws') := rfl
      rw [h1, splitOnChar_append_cons sep w _ (hfree w (by simp))]
      rw [ih (by simp) (fun v hv => hfree v (List.mem_cons_of_mem _ hv))]

theorem trimChars_sublist (s : Str) : (trimChars s).Sublist s := by
  unfold trimChars
  exact ((List.rdropWhile_prefix _ _).sublist).trans (List.dropWhile_sublist _)

theorem mem_of_mem_trimChars {s : Str} {a : Char} (h : a ∈ trimChars s) : a ∈ s :=
  (trimChars_sublist s).mem h

theorem dropWhile_eq_self_of_initial_segment {p : Char → Bool} {t u : Str}
    (hu : u.dropWhile p = u) (ht : t.IsPrefix u) : t.dropWhile p = t := by
  cases t with
  | nil => simp
  | cons a t' =>
    rcases ht with ⟨r, hr⟩
    subst hr
    rw [List.cons_append] at hu
    rw [List.dropWhile_cons] at hu ⊢
    by_cases hp : p a
    · exfalso
      rw [if_pos hp] at hu
      have hlen := congrArg List.length hu
      have hle := (@List.dropWhile_sublist Char (t' ++ r) p).length_le
      simp at hlen hle
      omega
    · rw [if_neg hp]

theorem trimChars_idempotent (s : Str) : trimChars (trimChars s) = trimChars s := by
  unfold trimChars
  have hu : (s.dropWhile Char.isWhitespace).dropWhile Char.isWhitespace
      = s.dropWhile Char.isWhitespace := List.dropWhile_idempotent _ _
  have hpre := List.rdropWhile_prefix Char.isWhitespace (s.dropWhile Char.isWhitespace)
  rw [dropWhile_eq_self_of_initial_segment hu hpre]
  exact List.rdropWhile_idempotent _ _

end StrLemmas

section SortLemmas

theorem strLe_nil_left (b : Str) : strLe [] b = true := rfl

theorem strLe_cons_nil (x : Char) (xs : Str) : strLe (x :: xs) [] = false := rfl

theorem strLe_cons_cons (x y : Char) (xs ys : Str) :
    strLe (x :: xs) (y :: ys)
      = if x < y then true else if y < x then false else strLe xs ys := rfl

theorem strLeR_iff (a b : Str) : strLeR a b ↔ strLe a b = true := Iff.rfl

instance : IsTotal Str strLeR := by
  constructor
  intro a
  induction a with
  | nil => intro b; left; exact strLe_nil_left b
  | cons x xs ih =>
    intro b
    cases b with
    | nil => right; exact strLe_nil_left _
    | cons y ys =>
      rcases lt_trichotomy x y with h | h | h
      · left
        rw [strLeR_iff, strLe_cons_cons, if_pos h]
      · subst h
        rcases ih ys with h' | h'
        · left
          rw [strLeR_iff, strLe_cons_cons, if_neg (lt_irrefl x), if_neg (lt_irrefl x)]
          exact h'
        · right
          rw [strLeR_iff, strLe_cons_cons, if_neg (lt_irrefl x), if_neg (lt_irrefl x)]
          exact h'
      · right
        rw [strLeR_iff, strLe_cons_cons, if_pos h]

instance : IsTrans Str strLeR := by
  constructor
  intro a
  induction a with
  | nil => intro b c _ _; exact strLe_nil_left c
  | cons x xs ih =>
    intro b c hab hbc
    cases b with
    | nil => rw [strLeR_iff, strLe_cons_nil] at hab; exact absurd hab (by simp)
    | cons y ys =>
      cases c with
      | nil => rw [strLeR_iff, strLe_cons_nil] at hbc; exact absurd hbc (by simp)
      | cons z zs =>
        rw [strLeR_iff, strLe_cons_cons] at hab hbc ⊢
        by_cases hxy : x < y
        · by_cases hyz : y < z
          · rw [if_pos (lt_trans hxy hyz)]
          · rw [if_neg hyz] at hbc
            by_cases hzy : z < y
            · rw [if_pos hzy] at hbc; exact absurd hbc (by simp)
            · have hyzeq : y = z := le_antisymm (not_lt.mp hzy) (not_lt.mp hyz)
              subst hyzeq
              rw [if_pos hxy]
        · rw [if_neg hxy] at hab
          by_cases hyx : y < x
          · rw [if_pos hyx] at hab; exact absurd hab (by simp)
          · have hxyeq : x = y := le_antisymm (not_lt.mp hyx) (not_lt.mp hxy)
            subst hxyeq
            rw [if_neg (lt_irrefl x)] at hab
            by_cases hxz : x < z
            · rw [if_pos hxz]
            · rw [if_neg hxz] at hbc ⊢
              by_cases hzx : z < x
              · rw [if_pos hzx] at hbc; exact absurd hbc (by simp)
              · rw [if_neg hzx] at hbc ⊢
                exact ih ys zs hab hbc

end SortLemmas

section UniqueLemmas

theorem mem_uniqueAux {α : Type} [DecidableEq α] (seen l : List α) (a : α) :
    a ∈ uniqueAux seen l ↔ a ∈ l ∧ a ∉ seen := by
  induction l generalizing seen with
  | nil => simp [uniqueAux]
  | cons x xs ih =>
    by_cases hx : x ∈ seen
    · rw [uniqueAux, if_pos hx, ih seen]
      constructor
      · rintro ⟨h1, h2⟩; exact ⟨List.mem_cons_of_mem _ h1, h2⟩
      · rintro ⟨h1, h2⟩
        rcases List.mem_cons.mp h1 with h | h
        · subst h; exact absurd hx h2
        · exact ⟨h, h2⟩
    · rw [uniqueAux, if_neg hx]
      constructor
      · intro h
        rcases List.mem_cons.mp h with h | h
        · subst h; exact ⟨List.mem_cons_self _ _, hx⟩
        · rcases (ih (x :: seen)).mp h with ⟨h1, h2⟩
          exact ⟨List.mem_cons_of_mem _ h1,
            fun hmem => h2 (List.mem_cons_of_mem _ hmem)⟩
      · rintro ⟨h1, h2⟩
        rcases List.mem_cons.mp h1 with h | h
        · subst h; exact List.mem_cons_self _ _
        · by_cases hax : a = x
          · subst hax; exact List.mem_cons_self _ _
          · exact List.mem_cons_of_mem _ ((ih (x :: seen)).mpr
              ⟨h, fun hmem => by
                rcases List.mem_cons.mp hmem with h' | h'
                · exact hax h'
                · exact h2 h'⟩)

theorem nodup_uniqueAux {α : Type} [DecidableEq α] (seen l : List α) :
    (uniqueAux seen l).Nodup := by
  induction l generalizing seen with
  | nil => simp [uniqueAux]
  | cons x xs ih =>
    by_cases hx : x ∈ seen
    · rw [uniqueAux, if_pos hx]; exact ih seen
    · rw [uniqueAux, if_neg hx]
      refine List.nodup_cons.mpr ⟨?_, ih (x :: seen)⟩
      intro hmem
      exact ((mem_uniqueAux _ _ _).mp hmem).2 (List.mem_cons_self _ _)

theorem uniqueAux_sublist {α : Type} [DecidableEq α] (seen l : List α) :
    (uniqueAux seen l).Sublist l := by
  induction l generalizing seen with
  | nil => simp [uniqueAux]
  | cons x xs ih =>
    by_cases hx : x ∈ seen
    · rw [uniqueAux, if_pos hx]
      exact (ih seen).trans (List.sublist_cons_self x xs)
    · rw [uniqueAux, if_neg hx]
      exact (ih (x :: seen)).cons₂ x

theorem mem_unique {α : Type} [DecidableEq α] (l : List α) (a : α) :
    a ∈ unique l ↔ a ∈ l := by
  simp [unique, mem_uniqueAux]

theorem nodup_unique {α : Type} [DecidableEq α] (l : List α) : (unique l).Nodup :=
  nodup_uniqueAux [] l

theorem unique_sublist {α : Type} [DecidableEq α] (l : List α) :
    (unique l).Sublist l := uniqueAux_sublist [] l

theorem unique_ne_nil {α : Type} [DecidableEq α] (l : List α) (h : l ≠ []) :
    unique l ≠ [] := by
  cases l with
  | nil => exact absurd rfl h
  | cons x xs =>
    simp only [unique, uniqueAux]
    rw [if_neg (List.not_mem_nil x)]
    simp

theorem uniqueAux_eq_nil {α : Type} [DecidableEq α] (seen l : List α)
    (h : ∀ a ∈ l, a ∈ seen) : uniqueAux seen l = [] := by
  induction l with
  | nil => simp [uniqueAux]
  | cons x xs ih =>
    rw [uniqueAux, if_pos (h x (List.mem_cons_self _ _))]
    exact ih (fun a ha => h a (List.mem_cons_of_mem _ ha))

theorem uniqueAux_append_eq {α : Type} [DecidableEq α] (seen l xs : List α)
    (hnd : l.Nodup) (hseen : ∀ a ∈ l, a ∉ seen)
    (hxs : ∀ b ∈ xs, b ∈ l ∨ b ∈ seen) : uniqueAux seen (l ++ xs) = l := by
  induction l generalizing seen with
  | nil =>
    rw [List.nil_append]
    exact uniqueAux_eq_nil seen xs
      (fun a ha => ((hxs a ha).resolve_left (List.not_mem_nil a)))
  | cons x l' ih =>
    have hx : x ∉ seen := hseen x (List.mem_cons_self _ _)
    rw [List.cons_append, uniqueAux, if_neg hx]
    have hnd' := List.nodup_cons.mp hnd
    congr 1
    refine ih (x :: seen) hnd'.2 ?_ ?_
    · intro a ha hmem
      rcases List.mem_cons.mp hmem with h | h
      · exact hnd'.1 (h ▸ ha)
      · exact hseen a (List.mem_cons_of_mem _ ha) h
    · intro b hb
      rcases hxs b hb with h | h
      · rcases List.mem_cons.mp h with h' | h'
        · exact Or.inr (h' ▸ List.mem_cons_self _ _)
        · exact Or.inl h'
      · exact Or.inr (List.mem_cons_of_mem _ h)

theorem unique_append_eq {α : Type} [DecidableEq α] (l xs : List α)
    (hnd : l.Nodup) (hxs : ∀ b ∈ xs, b ∈ l) : unique (l ++ xs) = l :=
  uniqueAux_append_eq [] l xs hnd (by simp) (fun b hb => Or.inl (hxs b hb))

end UniqueLemmas

/-!
Configuration model.  The `config` module (`./config`) is not among the
provided client sources; its data model and contracts are modelled from the
spec (§3, §4.1, §4.2): four scopes in increasing precedence, targets as a
closed tagged variant, `Inspect` holding the raw value stored at each scope,
effective reads by precedence walk, and writes landing exactly at the
target's scope.
-/

/-- A precedence level at which a setting may be independently stored. -/
inductive Scope where
  | Default
  | Global
  | Workspace
  | Folder
deriving DecidableEq

/-- Modelled from the spec: `ConfigTarget` from `./config` is either a bare
scope tag (`Global`, `Workspace`) or a `WorkspaceFolder` tag carrying an
optional resource locator. -/
inductive ConfigTarget where
  | Global
  | Workspace
  | WorkspaceFolder (uri : Option Str)
deriving DecidableEq

/-- Modelled from the spec: the result of reading a setting across all scopes
simultaneously; each field, if present, is exactly what is stored at that
scope, with no merging. -/
structure Inspect (α : Type) where
  defaultValue : Option α := none
  globalValue : Option α := none
  workspaceValue : Option α := none
  workspaceFolderValue : Option α := none
deriving DecidableEq

/-- `a` if defined, else `b` (JavaScript `a ?? b` on configuration reads). -/
def orElseOpt {α : Type} (a b : Option α) : Option α :=
  match a with
  | some x => some x
  | none => b

/-- Modelled from the spec: pure mapping from a target value to its precedence
scope; a target carrying a folder resource maps to `Folder` scope. -/
def configTargetToScope : ConfigTarget → Scope
  | ConfigTarget.Global => Scope.Global
  | ConfigTarget.Workspace => Scope.Workspace
  | ConfigTarget.WorkspaceFolder _ => Scope.Folder

/-- Modelled from the spec: `isGlobalTarget` — predicate for the bare global
target tag. -/
def isGlobalTarget : ConfigTarget → Bool
  | ConfigTarget.Global => true
  | _ => false

/-- Modelled from the spec: `isFolderLevelTarget` — predicate for
folder-scoped targets. -/
def isFolderLevelTarget : ConfigTarget → Bool
  | ConfigTarget.WorkspaceFolder _ => true
  | _ => false

/-- Modelled from the spec: `isConfigTargetWithResource` — predicate for the
target shape that carries a resource locator. -/
def isConfigTargetWithResource : ConfigTarget → Bool
  | ConfigTarget.WorkspaceFolder _ => true
  | _ => false

/-- Modelled from the spec: `inspectScopedSettingFromVSConfig` — the raw value
stored exactly at `scope`, no inheritance. -/
def inspectScopedSettingFromVSConfig {α : Type} (s : Inspect α) : Scope → Option α
  | Scope.Default => s.defaultValue
  | Scope.Global => s.globalValue
  | Scope.Workspace => s.workspaceValue
  | Scope.Folder => s.workspaceFolderValue

/-- Modelled from the spec: `getScopedSettingFromVSConfig` — the effective
(precedence-merged) value visible at `scope`: first defined value walking from
`scope` down to `Default` wins. -/
def getScopedSettingFromVSConfig {α : Type} (s : Inspect α) : Scope → Option α
  | Scope.Default => s.defaultValue
  | Scope.Global => orElseOpt s.globalValue s.defaultValue
  | Scope.Workspace => orElseOpt s.workspaceValue (orElseOpt s.globalValue s.defaultValue)
  | Scope.Folder =>
    orElseOpt s.workspaceFolderValue
      (orElseOpt s.workspaceValue (orElseOpt s.globalValue s.defaultValue))

/-- Modelled from the spec: `setSettingInVSConfig` — a scoped write: the value
lands exactly at the target's scope (`undefined` clears that scope's value). -/
def setSettingInVSConfig {α : Type} (s : Inspect α) (target : ConfigTarget)
    (v : Option α) : Inspect α :=
  match configTargetToScope target with
  | Scope.Default => { s with defaultValue := v }
  | Scope.Global => { s with globalValue := v }
  | Scope.Workspace => { s with workspaceValue := v }
  | Scope.Folder => { s with workspaceFolderValue := v }

theorem get_setSettingInVSConfig {α : Type} (s : Inspect α) (t : ConfigTarget)
    (v : Option α) (hv : v.isSome) :
    getScopedSettingFromVSConfig (setSettingInVSConfig s t v) (configTargetToScope t) = v := by
  cases v with
  | none => simp at hv
  | some a =>
    cases t <;>
      simp [setSettingInVSConfig, configTargetToScope, getScopedSettingFromVSConfig, orElseOpt]

theorem inspect_setSettingInVSConfig {α : Type} (s : Inspect α) (t : ConfigTarget)
    (v : Option α) :
    inspectScopedSettingFromVSConfig (setSettingInVSConfig s t v) (configTargetToScope t) = v := by
  cases t <;>
    simp [setSettingInVSConfig, configTargetToScope, inspectScopedSettingFromVSConfig]

theorem setSettingInVSConfig_overwrite {α : Type} (s : Inspect α) (t : ConfigTarget)
    (v w : Option α) :
    setSettingInVSConfig (setSettingInVSConfig s t v) t w = setSettingInVSConfig s t w := by
  cases t <;> simp [setSettingInVSConfig, configTargetToScope]

/-!
Embeddings of the functions of `src/client/src/settings/settings.ts` and of
the two workspace command handlers registered in `src/client/src/extension.ts`.
Ambient editor state (the configuration store, the presence of a workspace
root, the file system) is passed explicitly.
-/

/-- Modelled from the spec: `normalizeLocal` is imported from `../server`,
which is not among the provided client sources; per the spec (§4.3) it
lower-cases, trims, and canonicalizes the formatting of a comma-separated
locale list, with no reordering. -/
def normalizeLocal (s : Str) : Str :=
  joinChar ',' ((splitOnChar ',' s).map (fun w => trimChars (toLowerStr w)))

/-- The `language` string computed by `enableLocal`
(`settings.ts` lines 200-212): split the current value and the new argument
on commas, trim each entry, keep first occurrences, rejoin. -/
def enableLocalValue (currentLanguage loc : Str) : Str :=
  joinChar ',' (unique ((splitOnChar ',' currentLanguage ++ splitOnChar ',' loc).map trimChars))

/-- `enableLocal` (`settings.ts` lines 200-212): reads the effective
`language` value at the target's scope (`|| ''` when unset) and writes the
combined list back to the target's scope. -/
def enableLocal (langSetting : Inspect Str) (target : ConfigTarget) (loc : Str) :
    Inspect Str :=
  let scope := configTargetToScope target
  let currentLanguage := (getScopedSettingFromVSConfig langSetting scope).getD []
  let languages := enableLocalValue currentLanguage loc
  setSettingInVSConfig langSetting target (some languages)

/-- The `language` value computed by `disableLocal`
(`settings.ts` lines 214-226): normalize the stored value, drop entries equal
to the normalized locale, rejoin; `'' || undefined` turns an empty result into
`undefined`. -/
def disableLocalValue (currentLanguage loc : Str) : Option Str :=
  let locN := normalizeLocal loc
  let languages :=
    joinChar ',' ((splitOnChar ',' (normalizeLocal currentLanguage)).filter (· ≠ locN))
  if languages = [] then none else some languages

/-- `disableLocal` (`settings.ts` lines 214-226): reads the value stored
exactly at the target's scope (`inspect`, `|| ''` when unset) and writes the
filtered list (or `undefined`) back to the target's scope. -/
def disableLocal (langSetting : Inspect Str) (target : ConfigTarget) (loc : Str) :
    Inspect Str :=
  let scope := configTargetToScope target
  let currentLanguage := (inspectScopedSettingFromVSConfig langSetting scope).getD []
  setSettingInVSConfig langSetting target (disableLocalValue currentLanguage loc)

/-- `getEnabledLanguagesFromConfig` (`settings.ts` lines 115-117): effective
`enabledLanguageIds` at a scope, `|| []` when unset. -/
def getEnabledLanguagesFromConfig (s : Inspect (List Str)) (scope : Scope) : List Str :=
  (getScopedSettingFromVSConfig s scope).getD []

/-- `enableLanguageIdInConfig` (`settings.ts` lines 119-123): prepend the id to
the effective list, de-duplicate, sort, write, and return the new list. -/
def enableLanguageIdInConfig (s : Inspect (List Str)) (target : ConfigTarget)
    (languageId : Str) : Inspect (List Str) × List Str :=
  let scope := configTargetToScope target
  let langs := List.insertionSort strLeR
    (unique (languageId :: getEnabledLanguagesFromConfig s scope))
  (setSettingInVSConfig s target (some langs), langs)

/-- `disableLanguageIdInConfig` (`settings.ts` lines 125-129): filter the id
out of the effective list, sort, write, and return the new list. -/
def disableLanguageIdInConfig (s : Inspect (List Str)) (target : ConfigTarget)
    (languageId : Str) : Inspect (List Str) × List Str :=
  let scope := configTargetToScope target
  let langs := List.insertionSort strLeR
    ((getEnabledLanguagesFromConfig s scope).filter (· ≠ languageId))
  (setSettingInVSConfig s target (some langs), langs)

/-- The two word-list configuration sections `addWordToSettings` can write. -/
inductive WordsSection where
  | userWords
  | words
deriving DecidableEq

/-- The configuration store restricted to the two word-list sections. -/
structure WordsConfig where
  userWords : Inspect (List Str)
  words : Inspect (List Str)
deriving DecidableEq

def getWordsSection (cfg : WordsConfig) : WordsSection → Inspect (List Str)
  | WordsSection.userWords => cfg.userWords
  | WordsSection.words => cfg.words

def setWordsSection (cfg : WordsConfig) (sec : WordsSection)
    (v : Inspect (List Str)) : WordsConfig :=
  match sec with
  | WordsSection.userWords => { cfg with userWords := v }
  | WordsSection.words => { cfg with words := v }

/-- Target-resolution step of `addWordToSettings` (`settings.ts` line 162):
force the global target when the caller asked for it or no workspace root
exists. -/
def addWordUseGlobal (hasWorkspaceLocation : Bool) (target : ConfigTarget) : Bool :=
  isGlobalTarget target || !hasWorkspaceLocation

/-- Resolved write target of `addWordToSettings` (`settings.ts` line 163). -/
def addWordResolvedTarget (hasWorkspaceLocation : Bool) (target : ConfigTarget) :
    ConfigTarget :=
  if addWordUseGlobal hasWorkspaceLocation target then ConfigTarget.Global else target

/-- Section selection of `addWordToSettings` (`settings.ts` line 164). -/
def addWordSection (hasWorkspaceLocation : Bool) (target : ConfigTarget) :
    WordsSection :=
  if addWordUseGlobal hasWorkspaceLocation target then WordsSection.userWords
  else WordsSection.words

/-- The word list computed by `addWordToSettings` (`settings.ts` line 166):
`unique(words.concat(word.split(' ')).sort())`. -/
def addWordValue (words : List Str) (word : Str) : List Str :=
  unique (List.insertionSort strLeR (words ++ splitOnChar ' ' word))

/-- `addWordToSettings` (`settings.ts` lines 161-167). -/
def addWordToSettings (cfg : WordsConfig) (hasWorkspaceLocation : Bool)
    (target : ConfigTarget) (word : Str) : WordsConfig :=
  let useGlobal := addWordUseGlobal hasWorkspaceLocation target
  let target1 := if useGlobal then ConfigTarget.Global else target
  let sec := if useGlobal then WordsSection.userWords else WordsSection.words
  let words := (inspectScopedSettingFromVSConfig (getWordsSection cfg sec)
    (configTargetToScope target1)).getD []
  setWordsSection cfg sec
    (setSettingInVSConfig (getWordsSection cfg sec) target1 (some (addWordValue words word)))

/-- `setEnableSpellChecking` (`settings.ts` lines 111-113). -/
def setEnableSpellChecking (s : Inspect Bool) (target : ConfigTarget)
    (enabled : Bool) : Inspect Bool :=
  setSettingInVSConfig s target (some enabled)

/-- The `cSpell.enableForWorkspace` command handler
(`extension.ts` line 87): `setEnableSpellChecking(Target.Workspace, false)`. -/
def enableForWorkspaceCommand (s : Inspect Bool) : Inspect Bool :=
  setEnableSpellChecking s ConfigTarget.Workspace false

/-- The `cSpell.disableForWorkspace` command handler
(`extension.ts` line 88): `setEnableSpellChecking(Target.Workspace, false)`. -/
def disableForWorkspaceCommand (s : Inspect Bool) : Inspect Bool :=
  setEnableSpellChecking s ConfigTarget.Workspace false

/-- Modelled from the spec: `CSpellSettings.defaultFileName` lives in
`./CSpellSettings`, which is not among the provided client sources; per the
spec (§6) the canonical settings file name is `cspell.json`. -/
def baseConfigName : Str := "cspell.json".toList

/-- `path.join(root, rel)` restricted to the relative candidate paths used
here. -/
def pathJoin (root rel : Str) : Str := root ++ "/".toList ++ rel

/-- `configFileLocations` (`settings.ts` lines 18-23): the canonical name, its
lowercase form, and both under the hidden `.vscode` directory. -/
def configFileLocations : List Str :=
  [baseConfigName,
   toLowerStr baseConfigName,
   ".vscode/".toList ++ baseConfigName,
   ".vscode/".toList ++ toLowerStr baseConfigName]

/-- `findSettingsFiles` (`settings.ts` lines 62-86).  The promise is embedded
as an `Option`: `some` is a resolution, `none` a rejection (the only possible
rejection comes from `Array.prototype.reduce` applied to an empty array, which
throws).  The workspace-folder list, the folder-of-uri lookup and the
file-existence probe are the ambient collaborators, passed explicitly. -/
def findSettingsFiles (workspaceFolders : Option (List Str))
    (getWorkspaceFolder : Str → Option Str) (pathExists : Str → Bool)
    (uri : Option Str) : Option (List Str) :=
  match workspaceFolders with
  | none => some []
  | some wfs =>
    if wfs.isEmpty then some []
    else
      let folders :=
        match uri with
        | some u => (getWorkspaceFolder u).toList
        | none => wfs
      match folders.map (fun root => configFileLocations.map (pathJoin root)) with
      | [] => none
      | ls :: lss =>
        let possibleLocations := lss.foldl (· ++ ·) ls
        some (possibleLocations.filter pathExists)

/-- Outcome of an asynchronous computation: a JavaScript promise either
resolves (`ok`) or rejects (`error`). -/
abbrev Outcome (ε α : Type) := Except ε α

/-- `enableLanguage` (`settings.ts` lines 136-146): the returned promise is
the configuration write chained with a callback whose companion settings-file
update is started but not returned, so the outer promise neither awaits it nor
observes its failure.  The two collaborator outcomes are passed explicitly. -/
def enableLanguage {ε : Type} (target : ConfigTarget)
    (configResult : Outcome ε (List Str)) (fileResult : Outcome ε Unit) :
    Outcome ε Unit :=
  Except.bind configResult (fun _ =>
    if isConfigTargetWithResource target && isFolderLevelTarget target then
      have _ := fileResult
      Except.ok ()
    else Except.ok ())

/-- `disableLanguage` (`settings.ts` lines 148-159): identical shape, except
that the companion settings-file update is returned from the callback, so the
outer promise awaits it and propagates its failure. -/
def disableLanguage {ε : Type} (target : ConfigTarget)
    (configResult : Outcome ε (List Str)) (fileResult : Outcome ε Unit) :
    Outcome ε Unit :=
  Except.bind configResult (fun _ =>
    if isConfigTargetWithResource target && isFolderLevelTarget target then
      Except.bind fileResult (fun _ => Except.ok ())
    else Except.ok ())

/-!
Supporting lemmas about the locale-list values.
-/

theorem comma_not_mem_of_mem_map_trim {X : List Str} {w : Str}
    (hX : ∀ v ∈ X, ',' ∉ v) (hw : w ∈ X.map trimChars) : ',' ∉ w := by
  rcases List.mem_map.mp hw with ⟨v, hv, rfl⟩
  exact fun hmem => hX v hv (mem_of_mem_trimChars hmem)

theorem enableLocalValue_entries (cur loc : Str) :
    splitOnChar ',' (enableLocalValue cur loc)
      = unique ((splitOnChar ',' cur ++ splitOnChar ',' loc).map trimChars) := by
  unfold enableLocalValue
  apply splitOnChar_joinChar
  · apply unique_ne_nil
    intro h
    have h1 := congrArg List.length h
    have h2 : splitOnChar ',' cur ≠ [] := splitOnChar_ne_nil ',' cur
    simp [List.length_eq_zero] at h1
    exact h2 h1.1
  · intro w hw
    have hw' := (mem_unique _ _).mp hw
    apply comma_not_mem_of_mem_map_trim ?_ hw'
    intro v hv
    rcases List.mem_append.mp hv with h | h
    · exact not_mem_of_mem_splitOnChar ',' cur v h
    · exact not_mem_of_mem_splitOnChar ',' loc v h

theorem enableLocalValue_entries_trimmed (cur loc : Str) :
    ∀ w ∈ splitOnChar ',' (enableLocalValue cur loc), trimChars w = w := by
  intro w hw
  rw [enableLocalValue_entries] at hw
  have hw' := (mem_unique _ _).mp hw
  rcases List.mem_map.mp hw' with ⟨v, _, rfl⟩
  exact trimChars_idempotent v

theorem enableLocalValue_entries_nodup (cur loc : Str) :
    (splitOnChar ',' (enableLocalValue cur loc)).Nodup := by
  rw [enableLocalValue_entries]
  exact nodup_unique _

/-- C1 counterexample data: with the `language` setting unset at every scope,
`enableLocal(Workspace, "en")` writes `",en"`, whose entry list contains the
empty string; and `enableLocal(Workspace, "EN")` keeps the upper-case entry
`"EN"` un-normalized. -/
theorem enableLocal_empty_entry_counterexample :
    getScopedSettingFromVSConfig
        (enableLocal ⟨none, none, none, none⟩ ConfigTarget.Workspace "en".toList)
        Scope.Workspace = some ",en".toList
      ∧ [] ∈ splitOnChar ',' ",en".toList
      ∧ getScopedSettingFromVSConfig
          (enableLocal ⟨none, none, none, none⟩ ConfigTarget.Workspace "EN".toList)
          Scope.Workspace = some ",EN".toList
      ∧ "EN".toList ∈ splitOnChar ',' ",EN".toList
      ∧ toLowerStr "EN".toList ≠ "EN".toList := by
  decide

/-- C1 (amended): the `language` value written by `enableLocal` has its codes
trimmed and de-duplicated (first occurrence wins), but they are not
case-normalized, and an unset or empty current value contributes an empty
entry instead of being filtered out. -/
theorem enableLocal_written_value_trimmed_dedup (s : Inspect Str)
    (t : ConfigTarget) (loc : Str) :
    ∃ v, getScopedSettingFromVSConfig (enableLocal s t loc) (configTargetToScope t)
        = some v
      ∧ (splitOnChar ',' v).Nodup
      ∧ ∀ w ∈ splitOnChar ',' v, trimChars w = w := by
  refine ⟨enableLocalValue ((getScopedSettingFromVSConfig s (configTargetToScope t)).getD []) loc,
    ?_, enableLocalValue_entries_nodup _ _, enableLocalValue_entries_trimmed _ _⟩
  unfold enableLocal
  exact get_setSettingInVSConfig _ _ _ rfl

theorem enableLocalValue_idem (cur loc : Str) :
    enableLocalValue (enableLocalValue cur loc) loc = enableLocalValue cur loc := by
  have hsplit := enableLocalValue_entries cur loc
  have htrim := enableLocalValue_entries_trimmed cur loc
  have hnodup := enableLocalValue_entries_nodup cur loc
  have hmapself : (splitOnChar ',' (enableLocalValue cur loc)).map trimChars
      = splitOnChar ',' (enableLocalValue cur loc) := by
    calc (splitOnChar ',' (enableLocalValue cur loc)).map trimChars
        = (splitOnChar ',' (enableLocalValue cur loc)).map id :=
          List.map_congr_left htrim
      _ = splitOnChar ',' (enableLocalValue cur loc) := List.map_id _
  have hsubset : ∀ b ∈ (splitOnChar ',' loc).map trimChars,
      b ∈ splitOnChar ',' (enableLocalValue cur loc) := by
    intro b hb
    rw [hsplit, mem_unique]
    rw [List.map_append]
    exact List.mem_append_right _ hb
  calc enableLocalValue (enableLocalValue cur loc) loc
      = joinChar ','
          (unique ((splitOnChar ',' (enableLocalValue cur loc)
            ++ splitOnChar ',' loc).map trimChars)) := rfl
    _ = joinChar ','
          (unique (splitOnChar ',' (enableLocalValue cur loc)
            ++ (splitOnChar ',' loc).map trimChars)) := by
        rw [List.map_append, hmapself]
    _ = joinChar ',' (splitOnChar ',' (enableLocalValue cur loc)) := by
        rw [unique_append_eq _ _ hnodup hsubset]
    _ = enableLocalValue cur loc := joinChar_splitOnChar ',' _

/-- C3: a second `enableLocal` with the same locale writes the same `language`
value as the first (and leaves the store unchanged); in the claim's scenario,
with `"en"` stored at workspace scope, two `enableLocal(Workspace, "en")`
calls read back as `"en"`. -/
theorem enableLocal_second_call_same_value (s : Inspect Str) (t : ConfigTarget)
    (loc : Str) :
    enableLocal (enableLocal s t loc) t loc = enableLocal s t loc
      ∧ getScopedSettingFromVSConfig
          (enableLocal (enableLocal ⟨none, none, some "en".toList, none⟩
              ConfigTarget.Workspace "en".toList)
            ConfigTarget.Workspace "en".toList) Scope.Workspace
        = some "en".toList := by
  constructor
  · have hget : getScopedSettingFromVSConfig
        (enableLocal s t loc) (configTargetToScope t)
        = some (enableLocalValue
            ((getScopedSettingFromVSConfig s (configTargetToScope t)).getD []) loc) := by
      unfold enableLocal
      exact get_setSettingInVSConfig _ _ _ rfl
    show setSettingInVSConfig (enableLocal s t loc) t
        (some (enableLocalValue
          ((getScopedSettingFromVSConfig (enableLocal s t loc)
            (configTargetToScope t)).getD []) loc))
      = enableLocal s t loc
    rw [hget]
    simp only [Option.getD_some]
    rw [enableLocalValue_idem]
    show setSettingInVSConfig (setSettingInVSConfig s t _) t _ = _
    rw [setSettingInVSConfig_overwrite]
    rfl
  · decide

/-- C4: when removing the normalized locale from the value stored exactly at
the target's scope leaves nothing (the rejoined string is empty),
`disableLocal` writes `undefined`, clearing the override. -/
theorem disableLocal_clears_override (s : Inspect Str) (t : ConfigTarget) (loc : Str)
    (h : joinChar ','
        ((splitOnChar ',' (normalizeLocal
            ((inspectScopedSettingFromVSConfig s (configTargetToScope t)).getD []))).filter
          (· ≠ normalizeLocal loc)) = []) :
    inspectScopedSettingFromVSConfig (disableLocal s t loc) (configTargetToScope t)
      = none := by
  have hval : disableLocalValue
      ((inspectScopedSettingFromVSConfig s (configTargetToScope t)).getD []) loc = none := by
    unfold disableLocalValue
    rw [if_pos h]
  simp only [disableLocal]
  rw [hval]
  exact inspect_setSettingInVSConfig _ _ _

theorem disableLocal_clears_override_witness :
    joinChar ','
        ((splitOnChar ',' (normalizeLocal
            ((inspectScopedSettingFromVSConfig
              (⟨none, none, some "en".toList, none⟩ : Inspect Str)
              (configTargetToScope ConfigTarget.Workspace)).getD []))).filter
          (· ≠ normalizeLocal "en".toList)) = []
      ∧ inspectScopedSettingFromVSConfig
          (disableLocal ⟨none, none, some "en".toList, none⟩
            ConfigTarget.Workspace "en".toList)
          (configTargetToScope ConfigTarget.Workspace) = none :=
  ⟨by decide,
    disableLocal_clears_override ⟨none, none, some "en".toList, none⟩
      ConfigTarget.Workspace "en".toList (by decide)⟩

/-- C5 counterexample data: disabling a locale that is not present does not
always leave the stored value unchanged — `disableLocal` writes back the
normalized form of the stored value, so stored `"EN"` becomes `"en"` after
`disableLocal(Workspace, "de")`. -/
theorem disableLocal_normalizes_counterexample :
    inspectScopedSettingFromVSConfig
        (disableLocal ⟨none, none, some "EN".toList, none⟩
          ConfigTarget.Workspace "de".toList) Scope.Workspace
      = some "en".toList
      ∧ some "en".toList ≠ some "EN".toList := by
  decide

/-- C5 (amended): `disableLocal` operates on the value stored exactly at the
target's scope, and when the normalized locale is not among the entries of the
normalized stored value it writes back the normalized stored value (clearing
the setting when that normalization is empty) — so a stored value that is
already normalized, such as `"en,fr"` under `disableLocal(T, "de")`, still
reads `"en,fr"`; the exact-scope read also means a value stored only at a
broader scope is not copied down (last conjunct). -/
theorem disableLocal_absent_locale (s : Inspect Str) (t : ConfigTarget) (loc : Str)
    (h : normalizeLocal loc ∉ splitOnChar ','
        (normalizeLocal ((inspectScopedSettingFromVSConfig s (configTargetToScope t)).getD []))) :
    inspectScopedSettingFromVSConfig (disableLocal s t loc) (configTargetToScope t)
      = (if normalizeLocal ((inspectScopedSettingFromVSConfig s (configTargetToScope t)).getD [])
            = ([] : Str)
         then none
         else some (normalizeLocal
            ((inspectScopedSettingFromVSConfig s (configTargetToScope t)).getD [])))
      ∧ inspectScopedSettingFromVSConfig
          (disableLocal ⟨none, none, some "en,fr".toList, none⟩
            ConfigTarget.Workspace "de".toList) Scope.Workspace
        = some "en,fr".toList
      ∧ inspectScopedSettingFromVSConfig
          (disableLocal ⟨none, some "en,fr".toList, none, none⟩
            ConfigTarget.Workspace "de".toList) Scope.Workspace
        = none := by
  refine ⟨?_, by decide, by decide⟩
  have hfilter : (splitOnChar ','
      (normalizeLocal ((inspectScopedSettingFromVSConfig s (configTargetToScope t)).getD []))).filter
        (· ≠ normalizeLocal loc)
      = splitOnChar ','
        (normalizeLocal ((inspectScopedSettingFromVSConfig s (configTargetToScope t)).getD [])) := by
    apply List.filter_eq_self.mpr
    intro a ha
    simp only [decide_eq_true_eq]
    intro heq
    exact h (heq ▸ ha)
  have hval : disableLocalValue
      ((inspectScopedSettingFromVSConfig s (configTargetToScope t)).getD []) loc
      = (if normalizeLocal ((inspectScopedSettingFromVSConfig s (configTargetToScope t)).getD [])
            = ([] : Str)
         then none
         else some (normalizeLocal
            ((inspectScopedSettingFromVSConfig s (configTargetToScope t)).getD []))) := by
    simp only [disableLocalValue]
    rw [hfilter, joinChar_splitOnChar]
  simp only [disableLocal]
  rw [hval]
  exact inspect_setSettingInVSConfig _ _ _

theorem disableLocal_absent_locale_witness :
    normalizeLocal "de".toList ∉ splitOnChar ','
        (normalizeLocal ((inspectScopedSettingFromVSConfig
          (⟨none, none, some "en,fr".toList, none⟩ : Inspect Str)
          (configTargetToScope ConfigTarget.Workspace)).getD []))
      ∧ inspectScopedSettingFromVSConfig
          (disableLocal ⟨none, none, some "en,fr".toList, none⟩
            ConfigTarget.Workspace "de".toList)
          (configTargetToScope ConfigTarget.Workspace)
        = (if normalizeLocal ((inspectScopedSettingFromVSConfig
              (⟨none, none, some "en,fr".toList, none⟩ : Inspect Str)
              (configTargetToScope ConfigTarget.Workspace)).getD []) = ([] : Str)
           then none
           else some (normalizeLocal ((inspectScopedSettingFromVSConfig
              (⟨none, none, some "en,fr".toList, none⟩ : Inspect Str)
              (configTargetToScope ConfigTarget.Workspace)).getD []))) :=
  ⟨by decide,
    (disableLocal_absent_locale ⟨none, none, some "en,fr".toList, none⟩
      ConfigTarget.Workspace "de".toList (by decide)).1⟩

theorem addWordValue_nodup (words : List Str) (word : Str) :
    (addWordValue words word).Nodup := nodup_unique _

theorem addWordValue_sorted (words : List Str) (word : Str) :
    List.Sorted strLeR (addWordValue words word) := by
  unfold addWordValue
  exact (List.sorted_insertionSort strLeR _).sublist (unique_sublist _)

theorem mem_addWordValue (words : List Str) (word : Str) (x : Str) :
    x ∈ addWordValue words word ↔ x ∈ words ∨ x ∈ splitOnChar ' ' word := by
  unfold addWordValue
  rw [mem_unique, List.mem_insertionSort, List.mem_append]

/-- C2 counterexample data: with `["baz"]` stored at global scope only, the
effective (inherited) read at workspace scope sees `["baz"]`, yet
`addWordToSettings(Workspace, "foo bar")` writes `["bar","foo"]` — the code
reads with the non-inherited `inspect` read, so the claimed inherited-read
union `["bar","baz","foo"]` is not what is written. -/
theorem addWordToSettings_inherited_counterexample :
    getScopedSettingFromVSConfig
        (⟨none, some ["baz".toList], none, none⟩ : Inspect (List Str)) Scope.Workspace
      = some ["baz".toList]
      ∧ (addWordToSettings
          ⟨⟨none, none, none, none⟩, ⟨none, some ["baz".toList], none, none⟩⟩
          true ConfigTarget.Workspace "foo bar".toList).words.workspaceValue
        = some ["bar".toList, "foo".toList]
      ∧ (["bar".toList, "foo".toList] : List Str)
        ≠ ["bar".toList, "baz".toList, "foo".toList] := by
  decide

/-- C2 (amended): `addWordToSettings` reads the current word list with the
non-inherited (exact-scope) `inspect` read at the resolved target's scope,
splits the word on spaces, and writes back the sorted de-duplicated union of
that exact-scope list with the new entries; adding `"foo bar"` to `["baz"]`
stored at the resolved scope itself writes `["bar","baz","foo"]`. -/
theorem addWordToSettings_sorted_union (cfg : WordsConfig) (hasWs : Bool)
    (t : ConfigTarget) (word : Str) (current : List Str) :
    inspectScopedSettingFromVSConfig
        (getWordsSection (addWordToSettings cfg hasWs t word) (addWordSection hasWs t))
        (configTargetToScope (addWordResolvedTarget hasWs t))
      = some (addWordValue
          ((inspectScopedSettingFromVSConfig
            (getWordsSection cfg (addWordSection hasWs t))
            (configTargetToScope (addWordResolvedTarget hasWs t))).getD [])
          word)
      ∧ (addWordValue current word).Nodup
      ∧ List.Sorted strLeR (addWordValue current word)
      ∧ (∀ x, x ∈ addWordValue current word
          ↔ x ∈ current ∨ x ∈ splitOnChar ' ' word)
      ∧ addWordValue ["baz".toList] "foo bar".toList
        = ["bar".toList, "baz".toList, "foo".toList] := by
  refine ⟨?_, addWordValue_nodup current word, addWordValue_sorted current word,
    mem_addWordValue current word, by decide⟩
  simp only [addWordToSettings, addWordSection, addWordResolvedTarget]
  by_cases hg : addWordUseGlobal hasWs t
  · rw [if_pos hg]
    show inspectScopedSettingFromVSConfig
      (getWordsSection (setWordsSection cfg WordsSection.userWords _) WordsSection.userWords) _ = _
    simp only [getWordsSection, setWordsSection]
    exact inspect_setSettingInVSConfig _ _ _
  · rw [if_neg hg]
    show inspectScopedSettingFromVSConfig
      (getWordsSection (setWordsSection cfg WordsSection.words _) WordsSection.words) _ = _
    simp only [getWordsSection, setWordsSection]
    exact inspect_setSettingInVSConfig _ _ _

/-- C6: `enableLanguageIdInConfig` writes and returns the sorted,
de-duplicated union of the effective `enabledLanguageIds` list with the new
id; `disableLanguageIdInConfig` writes and returns the sorted difference
(de-duplicated whenever the current list is); the claim's three concrete
round-trips hold. -/
theorem languageId_enable_disable_roundtrip (s : Inspect (List Str))
    (t : ConfigTarget) (languageId : Str) :
    (enableLanguageIdInConfig s t languageId).1
        = setSettingInVSConfig s t (some (enableLanguageIdInConfig s t languageId).2)
      ∧ List.Sorted strLeR (enableLanguageIdInConfig s t languageId).2
      ∧ (enableLanguageIdInConfig s t languageId).2.Nodup
      ∧ (∀ x, x ∈ (enableLanguageIdInConfig s t languageId).2
          ↔ x = languageId
            ∨ x ∈ getEnabledLanguagesFromConfig s (configTargetToScope t))
      ∧ (disableLanguageIdInConfig s t languageId).1
        = setSettingInVSConfig s t (some (disableLanguageIdInConfig s t languageId).2)
      ∧ List.Sorted strLeR (disableLanguageIdInConfig s t languageId).2
      ∧ (∀ x, x ∈ (disableLanguageIdInConfig s t languageId).2
          ↔ x ∈ getEnabledLanguagesFromConfig s (configTargetToScope t)
            ∧ x ≠ languageId)
      ∧ ((getEnabledLanguagesFromConfig s (configTargetToScope t)).Nodup
          → (disableLanguageIdInConfig s t languageId).2.Nodup)
      ∧ (enableLanguageIdInConfig ⟨none, none, none, none⟩
          ConfigTarget.Workspace "rust".toList).2 = ["rust".toList]
      ∧ (disableLanguageIdInConfig ⟨none, none, some ["rust".toList], none⟩
          ConfigTarget.Workspace "rust".toList).2 = []
      ∧ (enableLanguageIdInConfig
          ⟨none, none, some ["python".toList, "go".toList], none⟩
          ConfigTarget.Workspace "go".toList).2
        = ["go".toList, "python".toList] := by
  refine ⟨rfl, ?_, ?_, ?_, rfl, ?_, ?_, ?_, by decide, by decide, by decide⟩
  · exact (List.sorted_insertionSort strLeR _).sublist
      (List.Sublist.refl _) |>.sublist (List.Sublist.refl _)
  · exact ((List.perm_insertionSort strLeR _).nodup_iff).mpr (nodup_unique _)
  · intro x
    show x ∈ List.insertionSort strLeR
      (unique (languageId :: getEnabledLanguagesFromConfig s (configTargetToScope t))) ↔ _
    rw [List.mem_insertionSort, mem_unique, List.mem_cons]
  · exact List.sorted_insertionSort strLeR _
  · intro x
    show x ∈ List.insertionSort strLeR
      ((getEnabledLanguagesFromConfig s (configTargetToScope t)).filter (· ≠ languageId)) ↔ _
    rw [List.mem_insertionSort, List.mem_filter]
    simp
  · intro hnd
    exact ((List.perm_insertionSort strLeR _).nodup_iff).mpr (hnd.filter _)

theorem languageId_enable_disable_roundtrip_witness :
    (getEnabledLanguagesFromConfig
        (⟨none, none, some ["a".toList], none⟩ : Inspect (List Str))
        (configTargetToScope ConfigTarget.Workspace)).Nodup
      ∧ (disableLanguageIdInConfig
          (⟨none, none, some ["a".toList], none⟩ : Inspect (List Str))
          ConfigTarget.Workspace "b".toList).2.Nodup :=
  ⟨by decide,
    (languageId_enable_disable_roundtrip
        ⟨none, none, some ["a".toList], none⟩
        ConfigTarget.Workspace "b".toList).2.2.2.2.2.2.2.1 (by decide)⟩

/-- C7: the resolved target and section of `addWordToSettings` — a global
caller target or a missing workspace root forces the Global target with the
`userWords` section; otherwise the caller's target is kept with the `words`
section; the section is a function of the resolved target (it is `userWords`
exactly when the resolved target is Global), and the store write lands in the
resolved section at the resolved target. -/
theorem addWordToSettings_target_resolution (hasWs : Bool) (t : ConfigTarget)
    (cfg : WordsConfig) (word : Str) :
    ((isGlobalTarget t = true ∨ hasWs = false)
        → addWordResolvedTarget hasWs t = ConfigTarget.Global
          ∧ addWordSection hasWs t = WordsSection.userWords)
      ∧ (isGlobalTarget t = false → hasWs = true
        → addWordResolvedTarget hasWs t = t
          ∧ addWordSection hasWs t = WordsSection.words)
      ∧ (addWordSection hasWs t = WordsSection.userWords
        ↔ addWordResolvedTarget hasWs t = ConfigTarget.Global)
      ∧ addWordToSettings cfg hasWs t word
        = setWordsSection cfg (addWordSection hasWs t)
            (setSettingInVSConfig (getWordsSection cfg (addWordSection hasWs t))
              (addWordResolvedTarget hasWs t)
              (some (addWordValue
                ((inspectScopedSettingFromVSConfig
                  (getWordsSection cfg (addWordSection hasWs t))
                  (configTargetToScope (addWordResolvedTarget hasWs t))).getD [])
                word))) := by
  cases t <;> cases hasWs <;>
    simp [addWordToSettings, addWordSection, addWordResolvedTarget, addWordUseGlobal,
      isGlobalTarget]

theorem addWordToSettings_target_resolution_witness :
    (isGlobalTarget ConfigTarget.Workspace = true ∨ false = false)
      ∧ addWordResolvedTarget false ConfigTarget.Workspace = ConfigTarget.Global
      ∧ addWordSection false ConfigTarget.Workspace = WordsSection.userWords :=
  ⟨Or.inr rfl,
    (addWordToSettings_target_resolution false ConfigTarget.Workspace
      ⟨⟨none, none, none, none⟩, ⟨none, none, none, none⟩⟩ []).1 (Or.inr rfl)⟩

/-- C8: with no workspace root (`workspaceFolders` absent or empty),
`findSettingsFiles` resolves to the empty list — it does not reject — for
every optional uri argument and every ambient file system. -/
theorem findSettingsFiles_no_workspace_root (workspaceFolders : Option (List Str))
    (getWorkspaceFolder : Str → Option Str) (pathExists : Str → Bool)
    (uri : Option Str)
    (h : workspaceFolders = none ∨ workspaceFolders = some []) :
    findSettingsFiles workspaceFolders getWorkspaceFolder pathExists uri = some [] := by
  rcases h with h | h <;> subst h <;> simp [findSettingsFiles]

theorem findSettingsFiles_no_workspace_root_witness :
    ((none : Option (List Str)) = none ∨ (none : Option (List Str)) = some [])
      ∧ findSettingsFiles none (fun _ => none) (fun _ => false) none = some []
      ∧ findSettingsFiles (some []) (fun _ => none) (fun _ => false)
          (some "/a/file".toList) = some [] :=
  ⟨Or.inl rfl,
    findSettingsFiles_no_workspace_root none (fun _ => none) (fun _ => false) none
      (Or.inl rfl),
    findSettingsFiles_no_workspace_root (some []) (fun _ => none) (fun _ => false)
      (some "/a/file".toList) (Or.inr rfl)⟩

/-- C9: the outcome of `enableLanguage` is independent of the companion
settings-file write — it resolves as soon as the configuration write does and
a file-write failure can never reject it — while `disableLanguage` awaits the
companion file write (on a folder target with a resource) and propagates its
failure. -/
theorem enableLanguage_fire_and_forget {ε : Type} (t : ConfigTarget)
    (configResult : Outcome ε (List Str)) (f f' : Outcome ε Unit)
    (l : List Str) (e : ε) :
    enableLanguage t configResult f = enableLanguage t configResult f'
      ∧ enableLanguage t (Except.ok l) f = Except.ok ()
      ∧ enableLanguage t (Except.error e) f = Except.error e
      ∧ disableLanguage (ConfigTarget.WorkspaceFolder (some "/root".toList))
          (Except.ok l) (Except.error e) = Except.error e
      ∧ disableLanguage (ConfigTarget.WorkspaceFolder (some "/root".toList))
          (Except.ok l) (Except.ok () : Outcome ε Unit) = Except.ok () := by
  cases t <;> cases configResult <;>
    simp [enableLanguage, disableLanguage, Except.bind, isConfigTargetWithResource,
      isFolderLevelTarget]

/-- C10: the `cSpell.enableForWorkspace` and `cSpell.disableForWorkspace`
command handlers perform the identical write —
`setEnableSpellChecking(Target.Workspace, false)` — so both store `false` in
`enabled` at workspace scope. -/
theorem workspace_commands_both_disable (s : Inspect Bool) :
    enableForWorkspaceCommand s = disableForWorkspaceCommand s
      ∧ enableForWorkspaceCommand s = setEnableSpellChecking s ConfigTarget.Workspace false
      ∧ inspectScopedSettingFromVSConfig (enableForWorkspaceCommand s) Scope.Workspace
        = some false := by
  refine ⟨rfl, rfl, rfl⟩
